import Mathlib

/-! Canvas navigator plugin — verification of the canvas synchronization core.

Shallow embedding of the canvas-handling logic of the Obsidian breadcrumb /
canvas-navigator plugin (`src/unnamed/part_001`, first document, with
`src/src/main.ts` as a sibling variant).  Pixel coordinates are JS numbers;
they are modelled as rationals (`Rat`), which is exact for all the arithmetic
the code performs (sums, max, division by a list length).  JS strings are
Lean `String`s, the JS `Set` of referenced paths is a list read up to
membership, and the host services (vault reads/writes, link resolution,
markdown measurement, random id generation) are parameters of the embedded
operations, matching the call boundaries in the source.
-/

/-! ## Substring search (JS `String.prototype.includes`) -/

/-- Does `needle` occur at the very start of `hay`? -/
def startsWithSub : List Char → List Char → Bool
  | [], _ => true
  | _ :: _, [] => false
  | a :: as, b :: bs => a = b && startsWithSub as bs

/-- Does `needle` occur contiguously anywhere inside `hay`? -/
def containsSub (needle : List Char) : List Char → Bool
  | [] => needle.isEmpty
  | c :: rest => startsWithSub needle (c :: rest) || containsSub needle rest

/-- JS `s.includes(sub)`. -/
def containsStr (s sub : String) : Bool :=
  containsSub sub.data s.data

/-! ## Wiki-link extraction (`extractWikiLinks`)

The source scans `text.matchAll(/\[\[(.*?)\]\]/g)`: a match starts at a
literal `[[`, the lazy group captures up to the *first* following `]]`, and
scanning resumes after that `]]`; since `.` without the `s` flag matches no
ECMAScript line terminator (LF, CR, U+2028, U+2029), a match attempt fails
outright when a line terminator appears between the `[[` and the first
`]]`; a position that starts no match is skipped one character at a time.
`findClose` is one lazy-match attempt (the capture and the remainder after
the closing `]]`); `scanLinksF` is the scan loop. -/

/-- An ECMAScript LineTerminator: the characters `.` never matches. -/
def isLineTerm (c : Char) : Bool :=
  c = '\n' || c = '\x0d' || c = '\u2028' || c = '\u2029'

/-- One lazy-match attempt for `(.*?)\]\]`: `some (capture, rest)` splits `l`
at its first `]]`; `none` when `l` has no `]]`, or a line terminator occurs
before the first `]]` (the `.` consuming it fails, and lazy expansion has no
way past it). -/
def findClose : List Char → Option (List Char × List Char)
  | [] => none
  | c :: rest =>
    if c = ']' ∧ rest.head? = some ']' then some ([], rest.tail)
    else if isLineTerm c then none
    else (findClose rest).map fun p => (c :: p.1, p.2)

/-- The regex scan loop, structurally recursive on a fuel bound (every step
consumes at least one character, so `l.length` fuel always suffices —
`scanLinksF_congr` below): each emitted element is one `match[1]` capture,
in order of appearance. -/
def scanLinksF : Nat → List Char → List String
  | 0, _ => []
  | _ + 1, [] => []
  | fuel + 1, c :: rest =>
    if c = '[' ∧ rest.head? = some '[' then
      match findClose rest.tail with
      | some p => String.mk p.1 :: scanLinksF fuel p.2
      | none => scanLinksF fuel rest
    else scanLinksF fuel rest

def scanLinks (l : List Char) : List String :=
  scanLinksF l.length l

/-- JS `split('|')[0]`: the prefix before the first `|` (the whole string when
there is none). -/
def beforePipe (l : List Char) : List Char :=
  l.takeWhile fun c => c ≠ '|'

/-- `extractWikiLinks` of `part_001` / `main.ts`: each capture is kept only
when it is truthy (non-empty), and its pre-`|` target only when that is
truthy in turn. -/
def extractWikiLinks (text : String) : List String :=
  (scanLinks text.data).filterMap fun cap =>
    if cap = "" then none
    else if String.mk (beforePipe cap.data) = "" then none
    else some (String.mk (beforePipe cap.data))

/-! ## The canvas document model

`CanvasNode` mirrors the `CanvasNode` interface: the typed fields the engine
interprets plus `extra`, the opaque bag standing for the interface's
`[key: string]: unknown` extension fields which the code never reads or
writes.  `CanvasData` mirrors `CanvasData`; `edges` is the opaque edge list
(`unknown[]`), carried verbatim. -/

structure CanvasNode where
  id : String
  type : String
  text : Option String := none
  file : Option String := none
  label : Option String := none
  x : Rat := 0
  y : Rat := 0
  width : Rat := 0
  height : Rat := 0
  extra : List (String × String) := []
deriving DecidableEq, Repr

structure CanvasData where
  nodes : List CanvasNode
  edges : List String := []
deriving DecidableEq, Repr

/-! ## Card text generation (`cleanName`, `extractNodeText`) -/

/-- A character of the regex class `[\d.\-_]`. -/
def isOrdinalChar (c : Char) : Bool :=
  c.isDigit || c = '.' || c = '-' || c = '_'

/-- A character the JS regex class `\s` matches (the escapes that occur in
vault note names; the exotic unicode spaces are irrelevant here). -/
def isJsSpace (c : Char) : Bool :=
  c = ' ' || c = '\t' || c = '\n' || c = '\x0d' || c = '\x0b' || c = '\x0c'

/-- `cleanName`: `text.replace(/^[\d.\-_]+\s+/, '')` — drop a leading run of
ordinal characters and the following run of whitespace, when both are
non-empty (the character classes are disjoint, so the greedy match is exactly
these two maximal runs). -/
def cleanName (s : String) : String :=
  let run := s.data.takeWhile isOrdinalChar
  let rest := s.data.dropWhile isOrdinalChar
  let ws := rest.takeWhile isJsSpace
  if run.isEmpty || ws.isEmpty then s
  else String.mk (rest.dropWhile isJsSpace)

/-- `extractNodeText` of `part_001` (lines 342–344): the generated card text.
`basename` is `file.basename` and `desc` the description excerpt the
preceding lines extract (frontmatter `description` field, else the regex
fallback scan) — the excerpt computation is a host-cache/file read, passed
in as a parameter. -/
def extractNodeText (basename desc : String) : String :=
  "# [[" ++ basename ++ "|" ++ cleanName basename ++ "]]" ++ "\n\n" ++ desc

/-! ## Create (`addToCanvas`, `part_001` lines 494–560) -/

/-- The duplicate-lookup test of `addToCanvas`: a `file` node referencing the
note's path, or a `text` node whose text contains `[[basename`. -/
def lookupPred (targetPath targetLink : String) (n : CanvasNode) : Bool :=
  (n.type == "file" && n.file == some targetPath) ||
  (n.type == "text" && (match n.text with
    | some t => containsStr t targetLink
    | none => false))

/-- The `maxX` fold of `addToCanvas`: starts at `0`, takes each node's right
edge when it exceeds the running value. -/
def rightEdgeFold (nodes : List CanvasNode) : Rat :=
  nodes.foldl (fun maxX n => if n.x + n.width > maxX then n.x + n.width else maxX) 0

/-- The `avgY` accumulation of `addToCanvas` before the division. -/
def ySumFold (nodes : List CanvasNode) : Rat :=
  nodes.foldl (fun s n => s + n.y) 0

/-- Outcome of `addToCanvas`: the document as left in storage, whether
`vault.modify` ran, and the returned node id (`null` never occurs here
because the JSON-parse failure path is outside the embedded function: the
parsed document is the `d` argument). -/
structure AddResult where
  doc : CanvasData
  wrote : Bool
  ret : Option String
deriving DecidableEq, Repr

/-- `addToCanvas canvasFile noteFile` on the parsed document `d`.
`targetPath`/`basename` come from `noteFile`, `desc` from the description
extraction, `width`/`height` from `measureTextPrecisely` (a DOM measurement,
hence a parameter), `newNodeId`/`groupId` from `Math.random`. -/
def addToCanvas (d : CanvasData) (targetPath basename desc : String)
    (width height : Rat) (newNodeId groupId : String) : AddResult :=
  let targetLink := "[[" ++ basename
  match d.nodes.find? (lookupPred targetPath targetLink) with
  | some n => ⟨d, false, some n.id⟩
  | none =>
    let textContent := extractNodeText basename desc
    let maxX : Rat := if d.nodes.length > 0 then rightEdgeFold d.nodes else -400
    let avgY : Rat :=
      if d.nodes.length > 0 then ySumFold d.nodes / (d.nodes.length : Rat) else -200
    let newNode : CanvasNode :=
      { id := newNodeId, type := "text", text := some textContent,
        x := maxX + 100, y := avgY, width := width, height := height }
    let newGroup : CanvasNode :=
      { id := groupId, type := "group", label := some basename,
        x := newNode.x, y := newNode.y, width := newNode.width, height := newNode.height }
    ⟨{ d with nodes := d.nodes ++ [newGroup, newNode] }, true, some newNodeId⟩

/-! ## Sync (`syncNodeInCanvas`, `part_001` lines 421–492) -/

/-- Does the sync loop's text test match `n`: a `text` node whose text
contains `targetLink`? -/
def textMatch (targetLink : String) (n : CanvasNode) : Bool :=
  n.type == "text" && (match n.text with
    | some t => containsStr t targetLink
    | none => false)

/-- The per-node effect of the sync loop: a matching text node gets the
regenerated text (writing an equal text back is the identity, matching the
source's `isContentDiff` guard which only skips a no-op assignment). -/
def syncText (textContent targetLink : String) (n : CanvasNode) : CanvasNode :=
  if textMatch targetLink n then { n with text := some textContent } else n

/-- Outcome of `syncNodeInCanvas`: the document as left in storage, whether
`vault.modify` ran (`updated`), and the returned target node id. -/
structure SyncResult where
  doc : CanvasData
  wrote : Bool
  ret : Option String
deriving DecidableEq, Repr

/-- `syncNodeInCanvas canvasFile noteFile` on the parsed document `d`
(`part_001` variant: text-only sync plus group repair, no size sync).
`textContent` is the regenerated card text, `groupId` the random id for a
synthesized group.  The loop updates every matching text node and remembers
the last one as the target; the fallback scans for a `file` node; a target
without a same-label group gets a fresh group unshifted to the front. -/
def syncNodeInCanvas (d : CanvasData) (targetPath basename textContent groupId : String) :
    SyncResult :=
  let targetLink := "[[" ++ basename
  let textTarget := (d.nodes.filter (textMatch targetLink)).getLast?
  let updatedText := d.nodes.any fun n =>
    textMatch targetLink n && !(n.text == some textContent)
  let target := match textTarget with
    | some n => some n
    | none => d.nodes.find? fun n => n.type == "file" && n.file == some targetPath
  let nodes₁ := d.nodes.map (syncText textContent targetLink)
  let hasGroup := d.nodes.any fun n => n.type == "group" && n.label == some basename
  match target with
  | none => ⟨{ d with nodes := nodes₁ }, updatedText, none⟩
  | some tn =>
    if hasGroup then ⟨{ d with nodes := nodes₁ }, updatedText, some tn.id⟩
    else
      let newGroup : CanvasNode :=
        { id := groupId, type := "group", label := some basename,
          x := tn.x, y := tn.y, width := tn.width, height := tn.height }
      ⟨{ d with nodes := newGroup :: nodes₁ }, true, some tn.id⟩

/-! ## Group adjustment (`adjustGroupsInCanvas`, `part_001` lines 563–631) -/

/-- The containment test: is `n`'s centroid inside group `g`'s rectangle? -/
def centroidInside (g n : CanvasNode) : Bool :=
  let cx := n.x + n.width / 2
  let cy := n.y + n.height / 2
  decide (g.x ≤ cx) && decide (cx ≤ g.x + g.width) &&
  decide (g.y ≤ cy) && decide (cy ≤ g.y + g.height)

/-- JS `f.split('/').pop()`: the final path component (`""` after a trailing
slash, the whole string when there is no slash). -/
def lastPathPart (f : String) : String :=
  String.mk ((f.data.reverse.takeWhile fun c => c ≠ '/').reverse)

/-- JS `s.replace(/\.md$/, '')`. -/
def dropMdSuffix (s : String) : String :=
  if s.data.reverse.take 3 = ['d', 'm', '.'] then String.mk (s.data.reverse.drop 3).reverse
  else s

/-- The target-card predicate of `adjustGroupsInCanvas`: a `file` node whose
path basename equals the group label, or a `text` node containing the
self-link in one of the accepted forms. -/
def labelCardMatch (label : String) (n : CanvasNode) : Bool :=
  if n.type == "file" then
    match n.file with
    | some f => dropMdSuffix (lastPathPart f) == label
    | none => false
  else if n.type == "text" then
    match n.text with
    | some t =>
      containsStr t ("[[" ++ label ++ "]]") || containsStr t ("[[" ++ label ++ "|") ||
      containsStr t ("# [[" ++ label ++ "]]")
    | none => false
  else false

/-- One iteration of the `for (const group of groups)` loop; groups are
independent (a group mutation changes neither the non-group nodes the
containment filter reads nor the file/text nodes the target search reads),
so the loop is a per-group map.  Returns the updated group and whether it
changed. -/
def adjustGroup (d : CanvasData) (nonGroups : List CanvasNode) (g : CanvasNode) :
    CanvasNode × Bool :=
  let inside := nonGroups.filter (centroidInside g)
  if inside.length > 1 then (g, false)
  else match g.label with
    | none => (g, false)
    | some l =>
      if l == "" then (g, false)
      else match d.nodes.find? (labelCardMatch l) with
        | none => (g, false)
        | some t =>
          if g.x == t.x && g.y == t.y && g.width == t.width && g.height == t.height then
            (g, false)
          else ({ g with x := t.x, y := t.y, width := t.width, height := t.height }, true)

/-- `adjustGroupsInCanvas` on the parsed document: every group node is
adjusted in place; the second component is `updated` (whether
`vault.modify` runs). -/
def adjustGroupsInCanvas (d : CanvasData) : CanvasData × Bool :=
  let nonGroups := d.nodes.filter fun n => !(n.type == "group")
  let processed := d.nodes.map fun n =>
    if n.type == "group" then adjustGroup d nonGroups n else (n, false)
  ({ d with nodes := processed.map Prod.fst }, processed.any Prod.snd)

/-! ## The reverse reference index (`indexSingleCanvas`, lines 177–204) -/

/-- The set of paths a canvas references (JS `Set` read up to membership):
each `file` node's path, and each resolvable wiki-link target of each `text`
node, resolved relative to the canvas's own path.  `resolve` is the host's
`metadataCache.getFirstLinkpathDest(linkText, canvasPath)`. -/
def referencedPaths (d : CanvasData) (canvasPath : String)
    (resolve : String → String → Option String) : List String :=
  d.nodes.flatMap fun n =>
    if n.type == "file" then
      match n.file with
      | some f => [f]
      | none => []
    else if n.type == "text" then
      match n.text with
      | some t => (extractWikiLinks t).filterMap fun l => resolve l canvasPath
      | none => []
    else []

/-- Outcome of `indexSingleCanvas`: the updated `canvasIndex` (a map from
canvas path to referenced-path set) and whether the failure path logged.
The function reads the canvas and writes nothing back, so it has no document
output. -/
structure IndexResult where
  index : String → Option (List String)
  reported : Bool

/-- `indexSingleCanvas` on the read content: `parsed` is the outcome of
`JSON.parse` (`none` = the `catch` path).  Success replaces the canvas's
entry wholesale; failure logs and deletes the entry. -/
def indexSingleCanvas (idx : String → Option (List String)) (canvasPath : String)
    (parsed : Option CanvasData) (resolve : String → String → Option String) : IndexResult :=
  match parsed with
  | some d =>
    ⟨fun k => if k = canvasPath then some (referencedPaths d canvasPath resolve) else idx k,
     false⟩
  | none => ⟨fun k => if k = canvasPath then none else idx k, true⟩

/-! ## Breadcrumb climb (`getBreadcrumbPath`, lines 674–685)

`parent` is `getParentFile` (frontmatter `up` link resolution, a host-cache
boundary); files are identified by path.  The while-loop is embedded with a
fuel argument; the termination claim is then the theorem that the result is
independent of the fuel once it exceeds the vault size, which is what bounds
the real loop (every visited path is a vault file and the visited set grows
each iteration). -/

/-- The while-loop of `getBreadcrumbPath`: stop on a revisited path, else
prepend the current file and climb to its parent. -/
def climb (parent : String → Option String) : Nat → String → List String → List String → List String
  | 0, _, _, path => path
  | fuel + 1, curr, seen, path =>
    if curr ∈ seen then path
    else
      match parent curr with
      | none => curr :: path
      | some p => climb parent fuel p (curr :: seen) (curr :: path)

/-- `getBreadcrumbPath`, root-first with the starting file last. -/
def getBreadcrumbPath (parent : String → Option String) (fuel : Nat) (file : String) :
    List String :=
  climb parent fuel file [] []

/-! ## Concrete documents, resolvers and field projections the theorems use -/

/-- A canvas whose single node lies entirely at negative x: its rightmost
edge is `-500 + 50 = -450`. -/
def negativeXDoc : CanvasData :=
  { nodes := [{ id := "a", type := "text", text := some "hello",
                x := -500, y := 0, width := 50, height := 20 }] }

/-- A canvas with one mis-sized group and the single card its label names:
the card's centroid `(25, 40)` lies outside the group's `[0,5] × [0,5]`
rectangle, so the group contains at most one node. -/
def snapCard : CanvasNode :=
  { id := "c", type := "text", text := some "x [[N]] y", x := 10, y := 20, width := 30, height := 40 }

def snapGroup : CanvasNode :=
  { id := "g", type := "group", label := some "N", x := 0, y := 0, width := 5, height := 5 }

def snapDoc : CanvasData := { nodes := [snapGroup, snapCard] }

/-- The fields of a node that neither group adjustment nor anything else in
the adjustment pass may change (everything but geometry), including the
opaque `extra` bag of unknown extension fields. -/
def nodeSkeleton (n : CanvasNode) :
    String × String × Option String × Option String × Option String × List (String × String) :=
  (n.id, n.type, n.text, n.file, n.label, n.extra)

/-- Every field of a node except `text`. -/
def nodeNonText (n : CanvasNode) :
    String × String × Option String × Option String × Rat × Rat × Rat × Rat
      × List (String × String) :=
  (n.id, n.type, n.file, n.label, n.x, n.y, n.width, n.height, n.extra)

/-- The resolver of the C4 scenario: `Alias` resolves to `Q.md`, nothing
else resolves. -/
def aliasResolver : String → String → Option String :=
  fun l _ => if l = "Alias" then some "Q.md" else none

/-- A canvas whose only text node contains `[[Alias|Display]]` preceded by an
unmatched `[[`, which the lazy regex swallows. -/
def nestedLinkDoc : CanvasData :=
  { nodes := [{ id := "t1", type := "text", text := some "[[x[[Alias|Display]]" }] }

/-- A canvas whose only text node is exactly `[[Alias|Display]]`. -/
def plainLinkDoc : CanvasData :=
  { nodes := [{ id := "t1", type := "text", text := some "[[Alias|Display]]" }] }

/-! ## Lemmas about substring search and the link scanner -/

theorem startsWithSub_self_append : ∀ (m r : List Char), startsWithSub m (m ++ r) = true
  | [], _ => rfl
  | a :: as, r => by simp [startsWithSub, startsWithSub_self_append as r]

theorem containsSub_append_right (m : List Char) :
    ∀ (p : List Char) (l : List Char), containsSub m l = true → containsSub m (p ++ l) = true
  | [], _, h => h
  | c :: p', l, h => by
    simp only [List.cons_append, containsSub, Bool.or_eq_true]
    exact Or.inr (containsSub_append_right m p' l h)

theorem containsSub_of_middle (p m r : List Char) : containsSub m (p ++ (m ++ r)) = true := by
  apply containsSub_append_right
  cases m with
  | nil => cases r <;> simp [containsSub, startsWithSub]
  | cons a as =>
    simp only [List.cons_append, containsSub, Bool.or_eq_true]
    exact Or.inl (startsWithSub_self_append (a :: as) r)

/-- `containsStr` holds whenever the needle occurs as a literal middle segment. -/
theorem containsStr_middle (p m r : String) : containsStr (p ++ m ++ r) m = true := by
  have h : (p ++ m ++ r).data = p.data ++ (m.data ++ r.data) := by
    simp [List.append_assoc]
  simp only [containsStr, h]
  exact containsSub_of_middle p.data m.data r.data

theorem findClose_rest_length :
    ∀ (l : List Char) (cap rest : List Char), findClose l = some (cap, rest) →
      rest.length < l.length := by
  intro l
  induction l with
  | nil => intro cap rest h; simp [findClose] at h
  | cons c l' ih =>
    intro cap rest h
    simp only [findClose] at h
    split at h
    · cases h
      have : l'.tail.length ≤ l'.length := by
        cases l' <;> simp [List.tail]
      simpa [List.length_cons] using Nat.lt_succ_of_le this
    · split at h
      · simp at h
      · cases hfc : findClose l' with
        | none => rw [hfc] at h; simp at h
        | some p =>
          rw [hfc] at h
          cases p with
          | mk cap' rest' =>
            simp only [Option.map_some'] at h
            cases h
            exact Nat.lt_succ_of_lt (ih _ _ hfc)

/-- The scan is fuel-insensitive above the input length. -/
theorem scanLinksF_congr :
    ∀ (f₁ f₂ : Nat) (l : List Char), l.length ≤ f₁ → l.length ≤ f₂ →
      scanLinksF f₁ l = scanLinksF f₂ l := by
  intro f₁
  induction f₁ with
  | zero =>
    intro f₂ l h1 _
    have : l = [] := List.length_eq_zero.mp (Nat.le_zero.mp h1)
    subst this
    cases f₂ <;> rfl
  | succ f ih =>
    intro f₂ l h1 h2
    cases l with
    | nil => cases f₂ <;> rfl
    | cons c rest =>
      cases f₂ with
      | zero => exact absurd h2 (by simp)
      | succ g =>
        have hrest1 : rest.length ≤ f := Nat.le_of_succ_le_succ h1
        have hrest2 : rest.length ≤ g := Nat.le_of_succ_le_succ h2
        have htail : rest.tail.length ≤ rest.length := by cases rest <;> simp [List.tail]
        simp only [scanLinksF]
        split
        · cases hfc : findClose rest.tail with
          | none => exact ih g rest hrest1 hrest2
          | some p =>
            have hlt := findClose_rest_length rest.tail p.1 p.2 hfc
            have hp1 : p.2.length ≤ f := Nat.le_of_lt (Nat.lt_of_lt_of_le hlt (Nat.le_trans htail hrest1))
            have hp2 : p.2.length ≤ g := Nat.le_of_lt (Nat.lt_of_lt_of_le hlt (Nat.le_trans htail hrest2))
            show String.mk p.1 :: scanLinksF f p.2 = String.mk p.1 :: scanLinksF g p.2
            rw [ih g p.2 hp1 hp2]
        · exact ih g rest hrest1 hrest2

/-- Skipping a non-`[` character. -/
theorem scanLinks_cons_ne (c : Char) (rest : List Char) (h : c ≠ '[') :
    scanLinks (c :: rest) = scanLinks rest := by
  show scanLinksF (rest.length + 1) (c :: rest) = scanLinksF rest.length rest
  simp only [scanLinksF]
  split
  · rename_i hcl
    exact absurd hcl.1 h
  · rfl

/-- Opening a match at `[[` whose close exists: the lazy capture is emitted
and scanning resumes after the `]]`. -/
theorem scanLinks_open (l cap r : List Char) (hfc : findClose l = some (cap, r)) :
    scanLinks ('[' :: '[' :: l) = String.mk cap :: scanLinks r := by
  have step : scanLinks ('[' :: '[' :: l)
      = match findClose l with
        | some p => String.mk p.1 :: scanLinksF (l.length + 1) p.2
        | none => scanLinksF (l.length + 1) ('[' :: l) := rfl
  rw [step, hfc]
  have hlt := findClose_rest_length l cap r hfc
  show String.mk cap :: scanLinksF (l.length + 1) r = String.mk cap :: scanLinksF r.length r
  rw [scanLinksF_congr (l.length + 1) r.length r (Nat.le_of_lt (Nat.lt_succ_of_lt hlt)) (Nat.le_refl _)]

/-! ## Lemmas about the generated card text and the placement folds -/

theorem extractNodeText_contains_link (basename desc : String) :
    containsStr (extractNodeText basename desc) ("[[" ++ basename) = true := by
  have hm : ("[[" ++ basename).data = '[' :: '[' :: basename.data := rfl
  have h2 : (extractNodeText basename desc).data
      = ['#', ' '] ++ (('[' :: '[' :: basename.data)
          ++ ('|' :: ((cleanName basename).data
              ++ (']' :: ']' :: '\n' :: '\n' :: desc.data)))) := by
    simp only [extractNodeText, String.data_append]
    simp [List.append_assoc]
  simp only [containsStr, hm, h2]
  exact containsSub_of_middle _ _ _

theorem rightEdgeFold_eq (nodes : List CanvasNode) :
    rightEdgeFold nodes = (nodes.map fun n => n.x + n.width).foldl max 0 := by
  have key : ∀ (l : List CanvasNode) (a : Rat),
      l.foldl (fun maxX n => if n.x + n.width > maxX then n.x + n.width else maxX) a
        = (l.map fun n => n.x + n.width).foldl max a := by
    intro l
    induction l with
    | nil => intro a; rfl
    | cons n l ih =>
      intro a
      simp only [List.foldl_cons, List.map_cons, ih]
      congr 1
      rcases le_or_lt (n.x + n.width) a with hle | hlt
      · rw [if_neg (not_lt.mpr hle), max_eq_left hle]
      · rw [if_pos hlt, max_eq_right (le_of_lt hlt)]
  exact key nodes 0

theorem ySumFold_eq (nodes : List CanvasNode) :
    ySumFold nodes = (nodes.map CanvasNode.y).sum := by
  have key : ∀ (l : List CanvasNode) (a : Rat),
      l.foldl (fun s n => s + n.y) a = a + (l.map CanvasNode.y).sum := by
    intro l
    induction l with
    | nil => intro a; simp
    | cons n l ih => intro a; simp [List.foldl_cons, ih, add_assoc]
  simpa using key nodes 0

/-- `lookupPred` holds of the text node `addToCanvas` creates. -/
theorem lookupPred_created (path basename desc : String) (nid : String) (w h x y : Rat) :
    lookupPred path ("[[" ++ basename)
      { id := nid, type := "text", text := some (extractNodeText basename desc),
        x := x, y := y, width := w, height := h } = true := by
  simp [lookupPred, extractNodeText_contains_link]

/-- `lookupPred` never holds of a group node. -/
theorem lookupPred_group (path link : String) (n : CanvasNode) (h : n.type = "group") :
    lookupPred path link n = false := by
  simp [lookupPred, h]

/-! ## C10 — extracted link targets are never empty -/

/-- C10: `extractWikiLinks` never returns an empty string — every returned
element is a non-empty link target, and a `[[]]` occurrence (empty capture)
or a `[[|alias]]` occurrence (empty target before the alias separator)
contributes no element to the output. -/
theorem extractWikiLinks_elements_nonempty :
    (∀ (t s : String), s ∈ extractWikiLinks t → s ≠ "") ∧
    extractWikiLinks "[[]]" = [] ∧ extractWikiLinks "[[|alias]]" = [] := by
  refine ⟨?_, by decide, by decide⟩
  intro t s hs
  simp only [extractWikiLinks, List.mem_filterMap] at hs
  obtain ⟨cap, -, hcap⟩ := hs
  by_cases h1 : cap = ""
  · simp [h1] at hcap
  · rw [if_neg h1] at hcap
    by_cases h2 : String.mk (beforePipe cap.data) = ""
    · simp [h2] at hcap
    · rw [if_neg h2] at hcap
      cases hcap
      exact h2

/-! ## C8 — parse failure deletes the canvas's index entry -/

/-- C8: on a canvas whose content fails to parse, `indexSingleCanvas` deletes
exactly that canvas's entry from the reverse index (leaving every other key
untouched) and reports the failure (the `catch` logs) instead of raising it;
the function reads the canvas and performs no write, so the canvas file is
untouched by construction of the embedding (its result carries no document). -/
theorem indexSingleCanvas_parse_failure (idx : String → Option (List String))
    (cp : String) (R : String → String → Option String) :
    (indexSingleCanvas idx cp none R).index cp = none ∧
    (∀ k, k ≠ cp → (indexSingleCanvas idx cp none R).index k = idx k) ∧
    (indexSingleCanvas idx cp none R).reported = true := by
  refine ⟨by simp [indexSingleCanvas], fun k hk => by simp [indexSingleCanvas, hk], rfl⟩

/-! ## C1 — create is idempotent -/

/-- C1: a second `addToCanvas` for the same (canvas, note) with no intervening
note change short-circuits at the duplicate lookup: it returns the same node
id as the first call, performs no write, and leaves the document (hence the
serialized canvas file) exactly as the first call left it. -/
theorem addToCanvas_idempotent (d : CanvasData) (path basename desc : String)
    (w h : Rat) (id₁ gid₁ id₂ gid₂ : String) :
    addToCanvas (addToCanvas d path basename desc w h id₁ gid₁).doc
        path basename desc w h id₂ gid₂
      = ⟨(addToCanvas d path basename desc w h id₁ gid₁).doc, false,
         (addToCanvas d path basename desc w h id₁ gid₁).ret⟩ := by
  cases hf : d.nodes.find? (lookupPred path ("[[" ++ basename)) with
  | some n =>
    simp [addToCanvas, hf]
  | none =>
    have hg : lookupPred path ("[[" ++ basename)
        { id := gid₁, type := "group", label := some basename,
          x := (if d.nodes.length > 0 then rightEdgeFold d.nodes else -400) + 100,
          y := if d.nodes.length > 0 then ySumFold d.nodes / (d.nodes.length : Rat) else -200,
          width := w, height := h } = false :=
      lookupPred_group _ _ _ rfl
    have ht := lookupPred_created path basename desc id₂
    simp only [addToCanvas, hf, List.find?_append, Option.none_or]
    rw [List.find?_cons_of_neg _ (by simp [hg]), List.find?_cons_of_pos _ (by simp [lookupPred_created])]

/-! ## C2 — create against an empty canvas -/

/-- C2 counterexample: for note `note.md` with description "Summary text" and
an empty canvas, the single text node `addToCanvas` produces carries the
aliased self-link `[[note|note]]`, and its text does NOT contain the literal
substring `[[note]]` the claim requires. -/
theorem addToCanvas_empty_no_plain_selflink :
    containsStr (extractNodeText "note" "Summary text") "[[note]]" = false ∧
    (addToCanvas ⟨[], []⟩ "note.md" "note" "Summary text" 300 280 "n1" "g1").doc.nodes.map
        CanvasNode.text
      = [none, some (extractNodeText "note" "Summary text")] :=
  ⟨by decide, by decide⟩

/-- C2 (amended: the text node contains the aliased self-link `[[note|note]]`
rather than `[[note]]`): against the empty canvas, create produces exactly one
text node — containing `[[note|note]]` and "Summary text", at the fixed
default offset `(-300, -200)` — and exactly one group node labelled `note`
immediately before it in the node sequence, with identical geometry. -/
theorem addToCanvas_empty_canvas (w h : Rat) (nid gid : String) :
    (addToCanvas ⟨[], []⟩ "note.md" "note" "Summary text" w h nid gid).doc.nodes
      = [{ id := gid, type := "group", label := some "note",
           x := -300, y := -200, width := w, height := h },
         { id := nid, type := "text",
           text := some (extractNodeText "note" "Summary text"),
           x := -300, y := -200, width := w, height := h }] ∧
    containsStr (extractNodeText "note" "Summary text") "[[note|note]]" = true ∧
    containsStr (extractNodeText "note" "Summary text") "Summary text" = true := by
  refine ⟨?_, by decide, by decide⟩
  show (addToCanvas ⟨[], []⟩ "note.md" "note" "Summary text" w h nid gid).doc.nodes = _
  simp only [addToCanvas]
  norm_num [CanvasNode.mk.injEq]

/-! ## C3 — placement policy of create -/

/-- C3 counterexample: on `negativeXDoc` (rightmost edge `-450`), the claim
puts the new card at `-450 + 100 = -350`, but the code's `maxX` accumulator
starts at `0`, so the card lands at `0 + 100 = 100`. -/
theorem addToCanvas_x_clamped_at_zero :
    (addToCanvas negativeXDoc "note.md" "note" "d" 10 10 "n1" "g1").doc.nodes.map CanvasNode.x
      = [-500, 100, 100] ∧
    (-500 : Rat) + 50 + 100 = -350 ∧ (100 : Rat) ≠ -350 := by
  refine ⟨?_, by norm_num, by norm_num⟩
  norm_num [addToCanvas, negativeXDoc, lookupPred, rightEdgeFold, ySumFold, containsStr,
    containsSub, startsWithSub]

/-- C3 (amended: the new card's x-position is `max 0 (rightmost edge) + 100`
— the accumulator starts at `0`, so canvases lying entirely at negative x are
clamped): when the lookup finds no existing card, the new card is appended
with `x = (foldl max 0 of the right edges) + 100` and `y =` the arithmetic
mean of the existing nodes' y values; on an empty canvas it lands at the
fixed default offset `(-400 + 100, -200)`. -/
theorem addToCanvas_placement (d : CanvasData) (path basename desc : String)
    (w h : Rat) (nid gid : String)
    (hfind : d.nodes.find? (lookupPred path ("[[" ++ basename)) = none) :
    ∃ g c, (addToCanvas d path basename desc w h nid gid).doc.nodes = d.nodes ++ [g, c] ∧
      c.x = (if d.nodes.isEmpty then -400
             else (d.nodes.map fun n => n.x + n.width).foldl max 0) + 100 ∧
      c.y = (if d.nodes.isEmpty then -200
             else (d.nodes.map CanvasNode.y).sum / (d.nodes.length : Rat)) := by
  simp only [addToCanvas, hfind]
  refine ⟨_, _, rfl, ?_, ?_⟩
  · show ((if d.nodes.length > 0 then rightEdgeFold d.nodes else -400) + 100) = _
    cases hn : d.nodes with
    | nil => simp
    | cons n l => simp [rightEdgeFold_eq, hn]
  · show (if d.nodes.length > 0 then ySumFold d.nodes / (d.nodes.length : Rat) else -200) = _
    cases hn : d.nodes with
    | nil => simp
    | cons n l => simp [ySumFold_eq, hn]

/-- C3 witness: the placement theorem applied to the empty canvas. -/
theorem addToCanvas_placement_witness :
    ∃ g c, (addToCanvas ⟨[], []⟩ "p.md" "b" "d" 1 1 "n" "g").doc.nodes
        = (⟨[], []⟩ : CanvasData).nodes ++ [g, c] ∧
      c.x = (if (⟨[], []⟩ : CanvasData).nodes.isEmpty then -400
             else ((⟨[], []⟩ : CanvasData).nodes.map fun n => n.x + n.width).foldl max 0) + 100 ∧
      c.y = (if (⟨[], []⟩ : CanvasData).nodes.isEmpty then -200
             else ((⟨[], []⟩ : CanvasData).nodes.map CanvasNode.y).sum
                  / ((⟨[], []⟩ : CanvasData).nodes.length : Rat)) :=
  addToCanvas_placement ⟨[], []⟩ "p.md" "b" "d" 1 1 "n" "g" rfl

/-! ## C9 — cycle safety of the breadcrumb climb -/

/-- The climb's result does not depend on the fuel once the fuel exceeds the
number of vault files not yet seen: each iteration either stops on a
revisited path or adds a fresh vault path to the visited set, so the loop
can run at most `vault.length + 1` times — the argument that makes the
source's unbounded `while` terminate. -/
theorem climb_fuel_irrelevant (parent : String → Option String) (vault : List String)
    (hpar : ∀ p q, parent p = some q → q ∈ vault) :
    ∀ (f₁ f₂ : Nat) (curr : String) (seen path : List String),
      curr ∈ vault → seen ⊆ vault → seen.Nodup →
      vault.length < f₁ + seen.length → vault.length < f₂ + seen.length →
      climb parent f₁ curr seen path = climb parent f₂ curr seen path := by
  intro f₁
  induction f₁ with
  | zero =>
    intro f₂ curr seen path _ hsub hnd h1 _
    have hle : seen.length ≤ vault.length := (hnd.subperm hsub).length_le
    omega
  | succ f ih =>
    intro f₂ curr seen path hcurr hsub hnd h1 h2
    cases f₂ with
    | zero =>
      have hle : seen.length ≤ vault.length := (hnd.subperm hsub).length_le
      omega
    | succ g =>
      by_cases hseen : curr ∈ seen
      · simp [climb, hseen]
      · simp only [climb, if_neg hseen]
        cases hp : parent curr with
        | none => rfl
        | some p =>
          have hlen : seen.length < vault.length := by
            have : (curr :: seen).Nodup := List.nodup_cons.mpr ⟨hseen, hnd⟩
            have hsub' : curr :: seen ⊆ vault := fun x hx => by
              rcases List.mem_cons.mp hx with rfl | hx
              · exact hcurr
              · exact hsub hx
            have := (this.subperm hsub').length_le
            simpa using this
          exact ih g p (curr :: seen) (curr :: path) (hpar curr p hp)
            (fun x hx => by
              rcases List.mem_cons.mp hx with rfl | hx
              · exact hcurr
              · exact hsub hx)
            (List.nodup_cons.mpr ⟨hseen, hnd⟩)
            (by simp; omega) (by simp; omega)

/-- C9: the breadcrumb climb terminates for every parent relation — over a
vault of `n` files (with parents resolving into the vault) the result is
already final for any fuel above `n`, because a repeated path immediately
ends the climb — and in the two-cycle where A's parent is B and B's parent
is A, the result is exactly the two-element path `[B, A]` with the starting
note A last. -/
theorem getBreadcrumbPath_cycle_safe :
    (∀ (parent : String → Option String) (vault : List String) (start : String) (f₁ f₂ : Nat),
      (∀ p q, parent p = some q → q ∈ vault) → start ∈ vault →
      vault.length < f₁ → vault.length < f₂ →
      getBreadcrumbPath parent f₁ start = getBreadcrumbPath parent f₂ start) ∧
    (∀ (parent : String → Option String) (A B : String) (fuel : Nat),
      A ≠ B → parent A = some B → parent B = some A → 3 ≤ fuel →
      getBreadcrumbPath parent fuel A = [B, A]) := by
  constructor
  · intro parent vault start f₁ f₂ hpar hstart h1 h2
    exact climb_fuel_irrelevant parent vault hpar f₁ f₂ start [] []
      hstart (by simp) List.nodup_nil (by simpa) (by simpa)
  · intro parent A B fuel hne hA hB hfuel
    obtain ⟨k, rfl⟩ : ∃ k, fuel = k + 3 := ⟨fuel - 3, by omega⟩
    show climb parent (k + 3) A [] [] = [B, A]
    have h1 : climb parent (k + 3) A [] [] = climb parent (k + 2) B [A] [A] := by
      simp [climb, hA]
    have h2 : climb parent (k + 2) B [A] [A] = climb parent (k + 1) A [B, A] [B, A] := by
      simp [climb, hB, Ne.symm hne]
    have h3 : climb parent (k + 1) A [B, A] [B, A] = [B, A] := by
      have : A ∈ [B, A] := by simp
      simp [climb, this]
    rw [h1, h2, h3]

/-! ## C5 — group geometry adjustment -/

/-- C5: for every group node, if strictly more than one non-group node's
centroid lies inside the group's rectangle it is left unchanged; if at most
one does (and the group has a truthy label, the guard the source applies
before looking the card up) and a card matching the label is found, the
adjustment pass sets the group's geometry exactly equal to that card's
(which also covers the already-equal case, where the update is the
identity). -/
theorem adjustGroupsInCanvas_snap (d : CanvasData) (i : Nat) (g : CanvasNode)
    (hg : d.nodes[i]? = some g) (hty : g.type = "group") :
    (((d.nodes.filter fun n => !(n.type == "group")).filter (centroidInside g)).length > 1 →
      (adjustGroupsInCanvas d).1.nodes[i]? = some g) ∧
    (∀ L t, g.label = some L → L ≠ "" →
      ((d.nodes.filter fun n => !(n.type == "group")).filter (centroidInside g)).length ≤ 1 →
      d.nodes.find? (labelCardMatch L) = some t →
      (adjustGroupsInCanvas d).1.nodes[i]?
        = some { g with x := t.x, y := t.y, width := t.width, height := t.height }) := by
  have hnode : (adjustGroupsInCanvas d).1.nodes[i]?
      = some (adjustGroup d (d.nodes.filter fun n => !(n.type == "group")) g).1 := by
    simp only [adjustGroupsInCanvas, List.getElem?_map, hg, Option.map_some']
    rw [if_pos (by simp [hty])]
  constructor
  · intro hcount
    rw [hnode]
    simp only [adjustGroup, if_pos hcount]
  · intro L t hL hLne hcount hfind
    rw [hnode]
    simp only [adjustGroup, if_neg (Nat.not_lt.mpr hcount), hL, hfind]
    rw [if_neg (by simp [hLne])]
    by_cases heq : (g.x == t.x && g.y == t.y && g.width == t.width && g.height == t.height) = true
    · rw [if_pos heq]
      simp only [Bool.and_eq_true, beq_iff_eq] at heq
      obtain ⟨⟨⟨hx, hy⟩, hw⟩, hh⟩ := heq
      cases g
      simp_all
    · rw [if_neg heq]

/-- C5 witness: on `snapDoc` the adjustment pass snaps the group to the
card's exact geometry. -/
theorem adjustGroupsInCanvas_snap_witness :
    (adjustGroupsInCanvas snapDoc).1.nodes[0]?
      = some { snapGroup with x := 10, y := 20, width := 30, height := 40 } := by
  have hcount : ((snapDoc.nodes.filter fun n => !(n.type == "group")).filter
      (centroidInside snapGroup)).length ≤ 1 := by
    norm_num [snapDoc, snapGroup, snapCard, centroidInside, List.filter]
  have h := (adjustGroupsInCanvas_snap snapDoc 0 snapGroup rfl rfl).2 "N" snapCard rfl
    (by decide) hcount rfl
  simpa [snapCard] using h

/-! ## C6 — sync writes back iff something changed -/

theorem syncText_eq_self (content tl : String) (n : CanvasNode)
    (h : textMatch tl n = false ∨ n.text = some content) : syncText content tl n = n := by
  unfold syncText
  rcases h with h | h
  · rw [if_neg (by simp [h])]
  · split
    · cases n
      simp only at h
      simp [h]
    · rfl

theorem syncText_map_id (content tl : String) (nodes : List CanvasNode)
    (h : ∀ n ∈ nodes, textMatch tl n = false ∨ n.text = some content) :
    nodes.map (syncText content tl) = nodes :=
  (List.map_congr_left fun n hn => syncText_eq_self content tl n (h n hn)).trans
    (List.map_id nodes)

theorem noDiff_of_any_false (content tl : String) (nodes : List CanvasNode)
    (h : (nodes.any fun n => textMatch tl n && !(n.text == some content)) = false) :
    ∀ n ∈ nodes, textMatch tl n = false ∨ n.text = some content := by
  intro n hn
  have hc := List.any_eq_false.mp h n hn
  by_cases hm : textMatch tl n = true
  · right
    simpa [hm] using hc
  · left
    simpa using hm

/-- C6: `syncNodeInCanvas` rewrites the document iff at least one node
actually changed — a matching card's text differs from the regenerated text,
or a found target lacks a group labelled with the note's basename and one is
synthesized.  (This `part_001` variant does not size-sync, so the 2px size
tolerance of the size-syncing variant contributes no write here.)  When
`updated` stays false, no write happens and the document equals what was
read. -/
theorem syncNodeInCanvas_write_iff (d : CanvasData) (path basename content gid : String) :
    ((syncNodeInCanvas d path basename content gid).wrote = false →
      (syncNodeInCanvas d path basename content gid).doc = d) ∧
    ((syncNodeInCanvas d path basename content gid).wrote = true ↔
      (∃ n ∈ d.nodes, textMatch ("[[" ++ basename) n = true ∧ n.text ≠ some content) ∨
      (((∃ n ∈ d.nodes, textMatch ("[[" ++ basename) n = true) ∨
          ∃ n ∈ d.nodes, n.type = "file" ∧ n.file = some path) ∧
        ¬ ∃ n ∈ d.nodes, n.type = "group" ∧ n.label = some basename)) := by
  cases htt : (d.nodes.filter (textMatch ("[[" ++ basename))).getLast? with
  | some tn =>
    have htn : tn ∈ d.nodes ∧ textMatch ("[[" ++ basename) tn = true :=
      List.mem_filter.mp (List.mem_of_getLast?_eq_some htt)
    cases hhg : d.nodes.any (fun n => n.type == "group" && n.label == some basename) with
    | true =>
      have hgrp : ∃ n ∈ d.nodes, n.type = "group" ∧ n.label = some basename := by
        simpa using hhg
      cases hup : d.nodes.any
          (fun n => textMatch ("[[" ++ basename) n && !(n.text == some content)) with
      | false =>
        have hres : syncNodeInCanvas d path basename content gid
            = ⟨{ d with nodes := d.nodes.map (syncText content ("[[" ++ basename)) },
               false, some tn.id⟩ := by
          simp [syncNodeInCanvas, htt, hhg, hup]
        rw [hres]
        constructor
        · intro
          show CanvasData.mk _ d.edges = d
          rw [syncText_map_id content ("[[" ++ basename) d.nodes
            (noDiff_of_any_false content ("[[" ++ basename) d.nodes hup)]
        · constructor
          · intro hfalse
            exact nomatch hfalse
          · rintro (⟨n, hn, hm, hd⟩ | ⟨_, hC⟩)
            · have hc := List.any_eq_false.mp hup n hn
              simp [hm, hd] at hc
            · exact absurd hgrp hC
      | true =>
        have hres : syncNodeInCanvas d path basename content gid
            = ⟨{ d with nodes := d.nodes.map (syncText content ("[[" ++ basename)) },
               true, some tn.id⟩ := by
          simp [syncNodeInCanvas, htt, hhg, hup]
        rw [hres]
        refine ⟨fun hfalse => (nomatch hfalse), iff_of_true rfl (Or.inl ?_)⟩
        obtain ⟨n, hn, hc⟩ := List.any_eq_true.mp hup
        refine ⟨n, hn, ?_, ?_⟩
        · exact (Bool.and_eq_true _ _).mp hc |>.1
        · have := (Bool.and_eq_true _ _).mp hc |>.2
          simpa using this
    | false =>
      have hnog : ¬ ∃ n ∈ d.nodes, n.type = "group" ∧ n.label = some basename := by
        intro ⟨n, hn, h1, h2⟩
        have := List.any_eq_false.mp hhg n hn
        simp [h1, h2] at this
      have hres : syncNodeInCanvas d path basename content gid
          = ⟨{ d with nodes :=
                { id := gid, type := "group", label := some basename,
                  x := tn.x, y := tn.y, width := tn.width, height := tn.height }
                  :: d.nodes.map (syncText content ("[[" ++ basename)) },
             true, some tn.id⟩ := by
        simp [syncNodeInCanvas, htt, hhg]
      rw [hres]
      exact ⟨fun hfalse => (nomatch hfalse),
        iff_of_true rfl (Or.inr ⟨Or.inl ⟨tn, htn.1, htn.2⟩, hnog⟩)⟩
  | none =>
    have hnom : ∀ n ∈ d.nodes, textMatch ("[[" ++ basename) n = false := by
      intro n hn
      have hfil := List.getLast?_eq_none_iff.mp htt
      have := List.filter_eq_nil_iff.mp hfil n hn
      simpa using this
    have hupf : (d.nodes.any
        fun n => textMatch ("[[" ++ basename) n && !(n.text == some content)) = false := by
      rw [List.any_eq_false]
      intro n hn
      simp [hnom n hn]
    have hA : ¬ ∃ n ∈ d.nodes, textMatch ("[[" ++ basename) n = true ∧ n.text ≠ some content := by
      intro ⟨n, hn, hm, _⟩
      rw [hnom n hn] at hm
      cases hm
    have hB1 : ¬ ∃ n ∈ d.nodes, textMatch ("[[" ++ basename) n = true := by
      intro ⟨n, hn, hm⟩
      rw [hnom n hn] at hm
      cases hm
    cases hfd : d.nodes.find? (fun n => n.type == "file" && n.file == some path) with
    | some fn =>
      have hfn : fn.type = "file" ∧ fn.file = some path := by
        have h2 := List.find?_some hfd
        simpa using h2
      have hfnm : fn ∈ d.nodes := List.mem_of_find?_eq_some hfd
      cases hhg : d.nodes.any (fun n => n.type == "group" && n.label == some basename) with
      | true =>
        have hgrp : ∃ n ∈ d.nodes, n.type = "group" ∧ n.label = some basename := by
          simpa using hhg
        have hres : syncNodeInCanvas d path basename content gid
            = ⟨{ d with nodes := d.nodes.map (syncText content ("[[" ++ basename)) },
               false, some fn.id⟩ := by
          simp [syncNodeInCanvas, htt, hfd, hhg, hupf]
        rw [hres]
        constructor
        · intro
          show CanvasData.mk _ d.edges = d
          rw [syncText_map_id content ("[[" ++ basename) d.nodes
            (fun n hn => Or.inl (hnom n hn))]
        · refine ⟨fun hfalse => (nomatch hfalse), ?_⟩
          rintro (hx | ⟨_, hC⟩)
          · exact absurd hx hA
          · exact absurd hgrp hC
      | false =>
        have hnog : ¬ ∃ n ∈ d.nodes, n.type = "group" ∧ n.label = some basename := by
          intro ⟨n, hn, h1, h2⟩
          have := List.any_eq_false.mp hhg n hn
          simp [h1, h2] at this
        have hres : syncNodeInCanvas d path basename content gid
            = ⟨{ d with nodes :=
                  { id := gid, type := "group", label := some basename,
                    x := fn.x, y := fn.y, width := fn.width, height := fn.height }
                    :: d.nodes.map (syncText content ("[[" ++ basename)) },
               true, some fn.id⟩ := by
          simp [syncNodeInCanvas, htt, hfd, hhg]
        rw [hres]
        exact ⟨fun hfalse => (nomatch hfalse),
          iff_of_true rfl (Or.inr ⟨Or.inr ⟨fn, hfnm, hfn⟩, hnog⟩)⟩
    | none =>
      have hres : syncNodeInCanvas d path basename content gid
          = ⟨{ d with nodes := d.nodes.map (syncText content ("[[" ++ basename)) },
             false, none⟩ := by
        simp [syncNodeInCanvas, htt, hfd, hupf]
      rw [hres]
      constructor
      · intro
        show CanvasData.mk _ d.edges = d
        rw [syncText_map_id content ("[[" ++ basename) d.nodes
          (fun n hn => Or.inl (hnom n hn))]
      · refine ⟨fun hfalse => (nomatch hfalse), ?_⟩
        rintro (hx | ⟨hB, _⟩)
        · exact absurd hx hA
        · rcases hB with hx | ⟨n, hn, h1, h2⟩
          · exact absurd hx hB1
          · have := List.find?_eq_none.mp hfd n hn
            simp [h1, h2] at this

/-! ## C7 — round-trip preservation of untouched fields -/

theorem adjustGroup_skeleton (d : CanvasData) (ng : List CanvasNode) (g : CanvasNode) :
    nodeSkeleton (adjustGroup d ng g).1 = nodeSkeleton g := by
  simp only [adjustGroup]
  repeat' split
  all_goals rfl

theorem syncText_nonText (content tl : String) (n : CanvasNode) :
    nodeNonText (syncText content tl n) = nodeNonText n := by
  unfold syncText
  split <;> rfl

theorem syncNodeInCanvas_doc_shape (d : CanvasData) (path basename content gid : String) :
    (syncNodeInCanvas d path basename content gid).doc.edges = d.edges ∧
    ∃ pre, (syncNodeInCanvas d path basename content gid).doc.nodes
        = pre ++ d.nodes.map (syncText content ("[[" ++ basename)) := by
  simp only [syncNodeInCanvas]
  split
  · exact ⟨rfl, [], by simp⟩
  · split
    · exact ⟨rfl, [], by simp⟩
    · exact ⟨rfl, [_], rfl⟩

/-- C7: the write path preserves everything it does not explicitly modify.
Create only appends (every original node, with all its fields and unknown
extension data, is carried verbatim; the edge list is untouched).  Sync maps
each node through `syncText`, which can only replace `text` — all other
fields including `extra` survive — and can only prepend a synthesized group.
Adjust keeps the node sequence's length and every field of every node except
group geometry.  (JSON parse/serialize themselves are host primitives that
round-trip the object; the `extra`/`edges` fields model the unknown data
they carry through.) -/
theorem canvas_ops_preserve_untouched (d : CanvasData) (path basename desc content : String)
    (w h : Rat) (nid gid gid₂ : String) :
    ((addToCanvas d path basename desc w h nid gid).doc.edges = d.edges ∧
      ∃ tail, (addToCanvas d path basename desc w h nid gid).doc.nodes = d.nodes ++ tail) ∧
    ((syncNodeInCanvas d path basename content gid₂).doc.edges = d.edges ∧
      ∃ pre, (syncNodeInCanvas d path basename content gid₂).doc.nodes
          = pre ++ d.nodes.map (syncText content ("[[" ++ basename)) ∧
        ∀ n : CanvasNode, nodeNonText (syncText content ("[[" ++ basename) n) = nodeNonText n) ∧
    ((adjustGroupsInCanvas d).1.edges = d.edges ∧
      (adjustGroupsInCanvas d).1.nodes.length = d.nodes.length ∧
      ∀ i : Nat, ((adjustGroupsInCanvas d).1.nodes[i]?).map nodeSkeleton
          = (d.nodes[i]?).map nodeSkeleton) := by
  refine ⟨?_, ?_, ?_⟩
  · cases hf : d.nodes.find? (lookupPred path ("[[" ++ basename)) with
    | some n =>
      simp only [addToCanvas, hf]
      exact ⟨trivial, [], by simp⟩
    | none =>
      simp only [addToCanvas, hf]
      exact ⟨trivial, _, rfl⟩
  · obtain ⟨he, pre, hp⟩ := syncNodeInCanvas_doc_shape d path basename content gid₂
    exact ⟨he, pre, hp, fun n => syncText_nonText content ("[[" ++ basename) n⟩
  · refine ⟨rfl, by simp [adjustGroupsInCanvas], ?_⟩
    intro i
    simp only [adjustGroupsInCanvas, List.getElem?_map]
    cases d.nodes[i]? with
    | none => rfl
    | some n =>
      simp only [Option.map_some']
      split
      · exact congrArg some (adjustGroup_skeleton d _ n)
      · rfl

/-! ## C4 — index soundness for text links -/

theorem scanLinks_append_no_open :
    ∀ (p l : List Char), (∀ c ∈ p, c ≠ '[') → scanLinks (p ++ l) = scanLinks l
  | [], l, _ => rfl
  | c :: p', l, h => by
    rw [List.cons_append, scanLinks_cons_ne c (p' ++ l) (h c (List.mem_cons_self c p')),
      scanLinks_append_no_open p' l (fun x hx => h x (List.mem_cons_of_mem c hx))]

theorem findClose_append :
    ∀ (m s : List Char), (∀ c ∈ m, c ≠ ']' ∧ isLineTerm c = false) →
      findClose (m ++ ']' :: ']' :: s) = some (m, s)
  | [], s, _ => by simp [findClose]
  | c :: m', s, h => by
    rw [List.cons_append]
    show findClose (c :: (m' ++ ']' :: ']' :: s)) = some (c :: m', s)
    rw [findClose]
    rw [if_neg (by simp [(h c (List.mem_cons_self c m')).1])]
    rw [if_neg (by simp [(h c (List.mem_cons_self c m')).2])]
    rw [findClose_append m' s (fun x hx => h x (List.mem_cons_of_mem c hx))]
    rfl

theorem beforePipe_append (xs ys : List Char) (h : ∀ c ∈ xs, c ≠ '|') :
    beforePipe (xs ++ '|' :: ys) = xs := by
  induction xs with
  | nil => simp [beforePipe]
  | cons c xs ih =>
    simp only [beforePipe, List.cons_append, List.takeWhile_cons] at ih ⊢
    rw [if_pos (by simp [h c (List.mem_cons_self c xs)])]
    rw [ih (fun x hx => h x (List.mem_cons_of_mem c hx))]

/-- A well-formed `[[a|b]]` occurrence (no `[` before it to open an earlier
lazy match, no `]` inside it to close early, no line terminator inside it —
JS `.` matches none, so one would abort the match) contributes exactly its
pre-pipe target `a` to the extracted links. -/
theorem extractWikiLinks_embedded (sp a b ss : String)
    (hsp : ∀ c ∈ sp.data, c ≠ '[')
    (ha : ∀ c ∈ a.data, c ≠ ']' ∧ c ≠ '|' ∧ isLineTerm c = false)
    (hb : ∀ c ∈ b.data, c ≠ ']' ∧ isLineTerm c = false)
    (hane : a ≠ "") :
    a ∈ extractWikiLinks (sp ++ "[[" ++ a ++ "|" ++ b ++ "]]" ++ ss) := by
  have hdata : (sp ++ "[[" ++ a ++ "|" ++ b ++ "]]" ++ ss).data
      = sp.data ++ ('[' :: '[' :: ((a.data ++ '|' :: b.data) ++ ']' :: ']' :: ss.data)) := by
    simp only [String.data_append]
    simp [List.append_assoc]
  have hmid : ∀ c ∈ a.data ++ '|' :: b.data, c ≠ ']' ∧ isLineTerm c = false := by
    intro c hc
    rcases List.mem_append.mp hc with hc | hc
    · exact ⟨(ha c hc).1, (ha c hc).2.2⟩
    · rcases List.mem_cons.mp hc with rfl | hc
      · exact ⟨by decide, by decide⟩
      · exact hb c hc
  have hscan : scanLinks (sp ++ "[[" ++ a ++ "|" ++ b ++ "]]" ++ ss).data
      = String.mk (a.data ++ '|' :: b.data) :: scanLinks ss.data := by
    rw [hdata, scanLinks_append_no_open sp.data _ hsp,
      scanLinks_open _ _ _ (findClose_append (a.data ++ '|' :: b.data) ss.data hmid)]
  have hcapne : String.mk (a.data ++ '|' :: b.data) ≠ "" := by
    intro hcontra
    have := congrArg String.data hcontra
    simp at this
  have htarget : String.mk (beforePipe (String.mk (a.data ++ '|' :: b.data)).data) = a := by
    show String.mk (beforePipe (a.data ++ '|' :: b.data)) = a
    rw [beforePipe_append a.data b.data (fun c hc => (ha c hc).2.1)]
  simp only [extractWikiLinks, hscan]
  refine List.mem_filterMap.mpr ⟨String.mk (a.data ++ '|' :: b.data), List.mem_cons_self _ _, ?_⟩
  rw [if_neg hcapne, htarget, if_neg hane]

theorem mem_referencedPaths_of_link (d : CanvasData) (cp : String)
    (R : String → String → Option String) (n : CanvasNode) (t l Q : String)
    (hn : n ∈ d.nodes) (hty : n.type = "text") (htext : n.text = some t)
    (hl : l ∈ extractWikiLinks t) (hres : R l cp = some Q) :
    Q ∈ referencedPaths d cp R := by
  unfold referencedPaths
  rw [List.mem_flatMap]
  refine ⟨n, hn, ?_⟩
  simp only [hty, htext]
  simp only [show (("text" : String) == "file") = false from rfl,
    show (("text" : String) == "text") = true from rfl, Bool.false_eq_true, if_false, if_true]
  exact List.mem_filterMap.mpr ⟨l, hl, hres⟩

theorem referencedPaths_sources (d : CanvasData) (cp : String)
    (R : String → String → Option String) (x : String)
    (hx : x ∈ referencedPaths d cp R) :
    (∃ m ∈ d.nodes, m.file = some x) ∨ ∃ l, R l cp = some x := by
  unfold referencedPaths at hx
  rw [List.mem_flatMap] at hx
  obtain ⟨m, hm, hxm⟩ := hx
  by_cases h1 : (m.type == "file") = true
  · rw [if_pos h1] at hxm
    cases hf : m.file with
    | none => rw [hf] at hxm; simp at hxm
    | some f =>
      rw [hf] at hxm
      left
      have hxf : x = f := by simpa using hxm
      exact ⟨m, hm, by rw [hf, hxf]⟩
  · rw [if_neg h1] at hxm
    by_cases h2 : (m.type == "text") = true
    · rw [if_pos h2] at hxm
      cases ht : m.text with
      | none => rw [ht] at hxm; simp at hxm
      | some t =>
        rw [ht] at hxm
        right
        obtain ⟨l, -, hl⟩ := List.mem_filterMap.mp hxm
        exact ⟨l, hl⟩
    · rw [if_neg h2] at hxm
      simp at hxm

/-- C4 (amended: the `[[Alias|Display]]` occurrence must be well formed — no
`[` before it, since an earlier unmatched `[[` makes the lazy regex swallow
the occurrence, and no `]` and no line terminator inside it, since JS `.`
matches no line terminator so one aborts the match — and the literal
`Alias|Display` can only be excluded when neither a `file` node nor the
resolver produces that string, which holds for real vault paths): for a
canvas with a text node containing such an occurrence whose target resolves
to Q, after `indexSingleCanvas` succeeds the index set for that canvas
contains Q and does not contain the unsplit literal; unresolvable targets
are silently skipped (only resolver outputs enter the set). -/
theorem indexSingleCanvas_text_link_sound (idx : String → Option (List String))
    (cp : String) (R : String → String → Option String) (d : CanvasData)
    (n : CanvasNode) (sp a b ss Q : String)
    (hmem : n ∈ d.nodes) (hty : n.type = "text")
    (htext : n.text = some (sp ++ "[[" ++ a ++ "|" ++ b ++ "]]" ++ ss))
    (hsp : ∀ c ∈ sp.data, c ≠ '[')
    (ha : ∀ c ∈ a.data, c ≠ ']' ∧ c ≠ '|' ∧ isLineTerm c = false)
    (hb : ∀ c ∈ b.data, c ≠ ']' ∧ isLineTerm c = false)
    (hane : a ≠ "") (hres : R a cp = some Q)
    (hfile : ∀ m ∈ d.nodes, m.file ≠ some (a ++ "|" ++ b))
    (hrlit : ∀ l, R l cp ≠ some (a ++ "|" ++ b)) :
    ∃ s, (indexSingleCanvas idx cp (some d) R).index cp = some s ∧
      Q ∈ s ∧ a ++ "|" ++ b ∉ s := by
  refine ⟨referencedPaths d cp R, by simp [indexSingleCanvas], ?_, ?_⟩
  · exact mem_referencedPaths_of_link d cp R n _ a Q hmem hty htext
      (extractWikiLinks_embedded sp a b ss hsp ha hb hane) hres
  · intro hbad
    rcases referencedPaths_sources d cp R _ hbad with ⟨m, hm, hf⟩ | ⟨l, hl⟩
    · exact hfile m hm hf
    · exact hrlit l hl

/-- C4 counterexample: `nestedLinkDoc`'s text node contains the substring
`[[Alias|Display]]` and `Alias` resolves to `Q.md`, yet after indexing the
set for the canvas is empty (the lazy regex captured `x[[Alias`, which does
not resolve) — so the claim fails as stated for an arbitrary containing
text. -/
theorem indexSingleCanvas_nested_link_missed :
    containsStr "[[x[[Alias|Display]]" "[[Alias|Display]]" = true ∧
    aliasResolver "Alias" "c.canvas" = some "Q.md" ∧
    ((indexSingleCanvas (fun _ => none) "c.canvas" (some nestedLinkDoc)
        aliasResolver).index "c.canvas").getD ["Q.md"] = [] :=
  ⟨by decide, by decide, by decide⟩

/-- C4 witness: the soundness theorem applied to `plainLinkDoc`. -/
theorem indexSingleCanvas_text_link_sound_witness :
    ∃ s, (indexSingleCanvas (fun _ => none) "c.canvas" (some plainLinkDoc)
        aliasResolver).index "c.canvas" = some s ∧
      "Q.md" ∈ s ∧ "Alias" ++ "|" ++ "Display" ∉ s := by
  have h := indexSingleCanvas_text_link_sound (fun _ => none) "c.canvas" aliasResolver
    plainLinkDoc { id := "t1", type := "text", text := some "[[Alias|Display]]" }
    "" "Alias" "Display" "" "Q.md"
    (by simp [plainLinkDoc]) rfl (by decide) (by decide) (by decide) (by decide)
    (by decide) (by decide)
    (by intro m hm hf
        simp [plainLinkDoc] at hm
        rw [hm] at hf
        simp at hf)
    (by intro l hl
        simp only [aliasResolver] at hl
        split at hl
        · simp at hl
        · simp at hl)
  exact h
